import Mathlib

/-!
Verification of `src/downloader.py` (Chunk-Downloader).

The Python program downloads a remote file by splitting it into byte
ranges, fetching the ranges concurrently (bounded by a semaphore) with a
per-chunk retry loop, writing each chunk to a temporary directory, and
concatenating the chunks in ascending index order into the output file.

This file shallowly embeds the program's pure logic:

* module constants (`CHUNK_SIZE`, `MAX_CONCURRENT_CHUNKS`, `CHUNK_DIR`,
  `RETRY_ATTEMPTS`) from lines 12-16;
* the range plan computed by `download_file` / `limited_download_chunk`
  (lines 114, 124-125);
* the retry loop `download_chunk_with_retry` (lines 25-55), with each
  HTTP attempt abstracted by an oracle giving its outcome;
* the temporary-chunk filesystem as an association list from chunk index
  to byte payload, with the operations the program performs on it
  (write chunk file, read chunk file, unlink, glob-and-unlink cleanup,
  rmdir), and the whole `download_file` control flow (lines 103-158);
* the semaphore gate of `limited_download_chunk` (lines 120-128) as a
  transition system over acquire/release events;
* the metadata query `get_file_info` (lines 89-101).

Bytes are modelled as `Nat`, payloads as `List Nat`.
-/

namespace ChunkDL

/-- `CHUNK_SIZE = 4 * 1024 * 1024` (downloader.py line 12). -/
def CHUNK_SIZE : Nat := 4 * 1024 * 1024

/-- `MAX_CONCURRENT_CHUNKS = 100` (downloader.py line 13). -/
def MAX_CONCURRENT_CHUNKS : Nat := 100

/-- `CHUNK_DIR = Path('chunk_temp')` (downloader.py line 14): a fixed
module-level constant, shared by every call to `download_file`. -/
def CHUNK_DIR : String := "chunk_temp"

/-- `RETRY_ATTEMPTS = 3` (downloader.py line 15). -/
def RETRY_ATTEMPTS : Nat := 3

/-! ## Range planning

`download_file` computes `num_chunks = (file_size + CHUNK_SIZE - 1) // CHUNK_SIZE`
(line 114) and `limited_download_chunk` computes, for chunk index `i`,
`start_byte = i * CHUNK_SIZE` and
`end_byte = min((i + 1) * CHUNK_SIZE - 1, file_size - 1)` (lines 124-125).
The chunk size is kept as a parameter so the planner can be stated for an
arbitrary positive segment length; the program instantiates it with
`CHUNK_SIZE`. -/

/-- `num_chunks` (downloader.py line 114). -/
def numChunks (fileSize chunkSize : Nat) : Nat :=
  (fileSize + chunkSize - 1) / chunkSize

/-- `start_byte` of chunk `i` (downloader.py line 124). -/
def chunkStart (chunkSize i : Nat) : Nat := i * chunkSize

/-- `end_byte` of chunk `i` (downloader.py line 125). -/
def chunkEnd (fileSize chunkSize i : Nat) : Nat :=
  min ((i + 1) * chunkSize - 1) (fileSize - 1)

/-- The ordered list of inclusive byte ranges the program requests. -/
def rangePlan (fileSize chunkSize : Nat) : List (Nat × Nat) :=
  (List.range (numChunks fileSize chunkSize)).map
    (fun i => (chunkStart chunkSize i, chunkEnd fileSize chunkSize i))

/-! ## Chunk file names

Chunk `i` is stored at `CHUNK_DIR / f'chunk_{chunk_index:04d}'`
(downloader.py line 41 and line 136): the name depends only on the chunk
index, zero-padded to at least four digits. -/

/-- Python's `f'{n:04d}'`: decimal digits of `n`, left-padded with zeros
to at least width 4. -/
def pad4 (n : Nat) : String :=
  let s := toString n
  String.mk (List.replicate (4 - s.length) '0') ++ s

/-- Full path of the temporary file for chunk `i`. -/
def chunkFileName (i : Nat) : String :=
  CHUNK_DIR ++ "/chunk_" ++ pad4 i

/-- The set of chunk-file keys a run with the given resource size uses
(one per planned chunk). -/
def runKeys (fileSize : Nat) : List String :=
  (List.range (numChunks fileSize CHUNK_SIZE)).map chunkFileName

/-! ## The retry loop

`download_chunk_with_retry` (downloader.py lines 25-55) builds the header
`Range: bytes={start_byte}-{end_byte}` once, then runs
`for attempt in range(RETRY_ATTEMPTS)`: a successful HTTP GET has its body
read and written to the chunk file and the function returns `True`
immediately — the body length is never compared against the requested
range; on `ClientError` or `TimeoutError` the loop either returns `False`
(when `attempt == RETRY_ATTEMPTS - 1`) or sleeps and retries.

The network is abstracted by an oracle mapping the 0-based attempt number
to that attempt's outcome. -/

/-- Outcome of one HTTP attempt: a successful response whose body is
`payload`, or an `aiohttp.ClientError` / `asyncio.TimeoutError`. -/
inductive AttemptOutcome where
  | ok (payload : List Nat)
  | err
deriving DecidableEq

/-- What one call of `download_chunk_with_retry` did: whether it returned
`True`, how many attempts it performed, what payload (if any) it wrote to
the chunk file, and the inclusive byte range in its `Range` header. -/
structure FetchResult where
  success : Bool
  attemptsMade : Nat
  persisted : Option (List Nat)
  requested : Nat × Nat
deriving DecidableEq

/-- The body of the `for attempt in range(RETRY_ATTEMPTS)` loop, from the
current 0-based `attempt` with `remaining` iterations left (the loop exits
with `return False` when `attempt == RETRY_ATTEMPTS - 1`, i.e. when the
current iteration is the last one). -/
def retryFrom (outcome : Nat → AttemptOutcome) (req : Nat × Nat)
    (attempt : Nat) : Nat → FetchResult
  | 0 => ⟨false, attempt, none, req⟩
  | remaining + 1 =>
    match outcome attempt with
    | .ok payload => ⟨true, attempt + 1, some payload, req⟩
    | .err =>
      if remaining = 0 then ⟨false, attempt + 1, none, req⟩
      else retryFrom outcome req (attempt + 1) remaining

/-- `download_chunk_with_retry` (downloader.py lines 25-55). -/
def download_chunk_with_retry (startByte endByte : Nat)
    (outcome : Nat → AttemptOutcome) : FetchResult :=
  retryFrom outcome (startByte, endByte) 0 RETRY_ATTEMPTS

/-! ## The temporary-chunk filesystem

The chunk directory is modelled as an association list from chunk index to
the byte payload of the file `chunk_{index:04d}`, together with a flag for
whether the directory itself exists. -/

/-- State of `CHUNK_DIR` on disk. -/
structure FS where
  dirExists : Bool
  chunkFiles : List (Nat × List Nat)
deriving DecidableEq

/-- `open(chunk_file, 'wb'); f.write(data)` (downloader.py lines 41-43):
creates or overwrites the chunk file for index `i`. -/
def putChunk (i : Nat) (data : List Nat) (s : FS) : FS :=
  { s with chunkFiles := (i, data) :: s.chunkFiles.filter (fun e => e.1 != i) }

/-- `open(chunk_file, 'rb'); f.read()` (downloader.py lines 137-138):
`none` models `FileNotFoundError`. -/
def readChunk (s : FS) (i : Nat) : Option (List Nat) :=
  s.chunkFiles.lookup i

/-- `chunk_file.unlink()` (downloader.py line 139). -/
def removeChunk (i : Nat) (s : FS) : FS :=
  { s with chunkFiles := s.chunkFiles.filter (fun e => e.1 != i) }

/-- The cleanup in `download_file`'s `finally` block (downloader.py lines
153-158): `for chunk_file in CHUNK_DIR.glob('chunk_*'): chunk_file.unlink()`
with every `OSError` swallowed. `glob` of a directory that never
materialized yields nothing, so the fold is over the files actually
present; the directory itself is not removed here. -/
def clearChunks (s : FS) : FS :=
  (s.chunkFiles.map Prod.fst).foldl (fun t i => removeChunk i t) s

/-- `CHUNK_DIR.rmdir()` (downloader.py line 141): raises `OSError` when
the directory still contains files. -/
def rmdirChunkDir (s : FS) : Except Unit FS :=
  if s.chunkFiles.isEmpty then .ok { s with dirExists := false }
  else .error ()

/-! ## Reassembly

Lines 134-139 of downloader.py: open the output file for writing, then
`for chunk_index in range(num_chunks)`: read the chunk file, append its
bytes to the output, and unlink the chunk file immediately afterwards.
The loop below returns whether every expected chunk file was found, the
bytes written to the output file so far, and the resulting directory
state. -/

/-- One pass of the combine loop over the pending chunk indices, with
`acc` the bytes already written to the output file. -/
def combineLoop : List Nat → FS → List Nat → Bool × List Nat × FS
  | [], s, acc => (true, acc, s)
  | i :: rest, s, acc =>
    match readChunk s i with
    | none => (false, acc, s)
    | some d => combineLoop rest (removeChunk i s) (acc ++ d)

/-- The whole "Combining chunks" phase for `n` chunks. -/
def combineChunks (n : Nat) (s : FS) : Bool × List Nat × FS :=
  combineLoop (List.range n) s []

/-- Completion-ordered chunk writes: each successfully fetched chunk is
written to its own file, in whatever order the fetches finished. -/
def applyWrites (w : List (Nat × List Nat)) (s : FS) : FS :=
  w.foldl (fun t e => putChunk e.1 e.2 t) s

/-- The empty chunk directory right after `CHUNK_DIR.mkdir(exist_ok=True)`. -/
def emptyFS : FS := ⟨true, []⟩

/-! ## The whole `download_file` run

`download_file` (downloader.py lines 103-158), with the network abstracted
by `chunkOk i` (whether `download_chunk_with_retry` returned `True` for
chunk `i`) and `payload i` (the bytes it wrote when it succeeded):

1. `CHUNK_DIR.mkdir(exist_ok=True)`;
2. every chunk task runs (the `asyncio.gather` barrier lets already
   started tasks drain), writing its chunk file exactly when its fetch
   succeeded;
3. if any task failed, `gather` raises before the output file is opened;
4. otherwise the combine loop writes the output file and unlinks the
   chunks, then `CHUNK_DIR.rmdir()` runs;
5. the `finally` block glob-unlinks any remaining chunk files; it never
   removes the directory. -/

/-- Observable outcome of one `download_file` run: final directory state,
content of the output file (`none` when it was never opened), number of
chunk fetches performed, and whether the call returned normally. -/
structure RunResult where
  fs : FS
  output : Option (List Nat)
  fetches : Nat
  ok : Bool
deriving DecidableEq

/-- The in-flight phase: every chunk task of `range n` runs, and the ones
whose fetch succeeded have written their chunk file. -/
def fetchPhase (n : Nat) (chunkOk : Nat → Bool) (payload : Nat → List Nat) : FS :=
  (List.range n).foldl
    (fun s i => if chunkOk i then putChunk i (payload i) s else s) emptyFS

/-- Lines 133-158 after a fully successful `gather`: combine the chunks
into the output file (partial bytes stay in the output file if a chunk
file is missing), `rmdir` the chunk directory, and run the `finally`
cleanup on whichever state the body reached. -/
def mergePhase (n : Nat) (fs1 : FS) : RunResult :=
  let res := combineChunks n fs1
  if res.1 then
    match rmdirChunkDir res.2.2 with
    | .ok fs3 => ⟨clearChunks fs3, some res.2.1, n, true⟩
    | .error _ => ⟨clearChunks res.2.2, some res.2.1, n, false⟩
  else ⟨clearChunks res.2.2, some res.2.1, n, false⟩

/-- `download_file` (downloader.py lines 103-158). -/
def downloadFileRun (fileSize : Nat) (chunkOk : Nat → Bool)
    (payload : Nat → List Nat) : RunResult :=
  let n := numChunks fileSize CHUNK_SIZE
  let fs1 := fetchPhase n chunkOk payload
  if (List.range n).all chunkOk then mergePhase n fs1
  else ⟨clearChunks fs1, none, n, false⟩

/-! ## The concurrency gate

`limited_download_chunk` (downloader.py lines 120-128) wraps each fetch in
`async with semaphore`, where `semaphore = asyncio.Semaphore(MAX_CONCURRENT_CHUNKS)`.
The semaphore is a counter initialised to the capacity: acquire can only
happen while the counter is positive (otherwise the task waits) and
decrements it; release — guaranteed by `async with` on every exit path —
increments it. A trace of acquire/release events models one interleaving
of the chunk tasks; `active` counts the tasks currently inside the
`async with` block. -/

/-- Semaphore counter and number of tasks currently holding a slot. -/
structure GateState where
  value : Nat
  active : Nat
deriving DecidableEq

/-- An admission into or an exit from the `async with semaphore` block. -/
inductive GateEvent where
  | acquire
  | release
deriving DecidableEq

/-- One scheduler step: `acquire` is only enabled while the counter is
positive; `release` is only performed by a task holding a slot. -/
def gateStep (s : GateState) : GateEvent → Option GateState
  | .acquire => if s.value = 0 then none else some ⟨s.value - 1, s.active + 1⟩
  | .release => if s.active = 0 then none else some ⟨s.value + 1, s.active - 1⟩

/-- Run a trace of gate events from a state. -/
def gateRun (s : GateState) : List GateEvent → Option GateState
  | [] => some s
  | e :: es =>
    match gateStep s e with
    | none => none
    | some s2 => gateRun s2 es

/-- `asyncio.Semaphore(cap)` right after construction (downloader.py
line 120): full counter, nobody inside. -/
def gateInit (cap : Nat) : GateState := ⟨cap, 0⟩

/-! ## The metadata query

`get_file_info` (downloader.py lines 89-101): a HEAD request, then
`response.raise_for_status()` (raises for any status ≥ 400), then the
`Content-Length` header is required; `Content-Type` only feeds the file
extension and `Accept-Ranges` is never consulted. The `Content-Length`
value is modelled as the parsed non-negative integer it carries. -/

/-- The fields of the HEAD response that exist in an HTTP response,
whether or not `get_file_info` reads them. -/
structure HeadResponse where
  status : Nat
  contentLength : Option Nat
  contentType : Option String
  acceptRanges : Option String
deriving DecidableEq

/-- Why `get_file_info` raised: `raise_for_status` fired, or the server
sent no `Content-Length`. -/
inductive MetaError where
  | httpStatus
  | noLength
deriving DecidableEq

/-- `get_file_info` (downloader.py lines 89-101), returning the resource
size on success. -/
def get_file_info (r : HeadResponse) : Except MetaError Nat :=
  if 400 ≤ r.status then .error .httpStatus
  else
    match r.contentLength with
    | none => .error .noLength
    | some len => .ok len

/-! ## Association-list lemmas -/

theorem lookup_filter_ne (l : List (Nat × List Nat)) (i j : Nat) (h : j ≠ i) :
    (l.filter (fun e => e.1 != i)).lookup j = l.lookup j := by
  induction l with
  | nil => simp
  | cons e t ih =>
    obtain ⟨k, v⟩ := e
    by_cases hk : k = i
    · subst hk
      have hj : (j == k) = false := beq_eq_false_iff_ne.mpr h
      simp [List.filter_cons, List.lookup, hj, ih]
    · have hkb : (k != i) = true := bne_iff_ne.mpr hk
      by_cases hj : j = k
      · subst hj
        simp [List.filter_cons, List.lookup, hkb]
      · have hjb : (j == k) = false := beq_eq_false_iff_ne.mpr hj
        simp [List.filter_cons, List.lookup, hkb, hjb, ih]

theorem lookup_filter_self (l : List (Nat × List Nat)) (i : Nat) :
    (l.filter (fun e => e.1 != i)).lookup i = none := by
  induction l with
  | nil => simp
  | cons e t ih =>
    obtain ⟨k, v⟩ := e
    by_cases hk : k = i
    · subst hk
      simp [List.filter_cons, ih]
    · have hkb : (k != i) = true := bne_iff_ne.mpr hk
      have hib : (i == k) = false := beq_eq_false_iff_ne.mpr (Ne.symm hk)
      simp [List.filter_cons, List.lookup, hkb, hib, ih]

theorem lookup_none_of_not_mem_keys (l : List (Nat × List Nat)) (k : Nat)
    (h : k ∉ l.map Prod.fst) : l.lookup k = none := by
  induction l with
  | nil => rfl
  | cons e t ih =>
    have hk : k ≠ e.1 := by
      intro hk
      exact h (by simp [hk])
    have hkb : (k == e.1) = false := beq_eq_false_iff_ne.mpr hk
    have ht : k ∉ t.map Prod.fst := fun hm => h (by simp [hm])
    obtain ⟨a, v⟩ := e
    simpa [List.lookup, hkb] using ih ht

theorem mem_of_lookup_some (l : List (Nat × List Nat)) (k : Nat) (v : List Nat)
    (h : l.lookup k = some v) : (k, v) ∈ l := by
  induction l with
  | nil => simp at h
  | cons e t ih =>
    obtain ⟨a, d⟩ := e
    by_cases hk : k = a
    · subst hk
      simp only [List.lookup, beq_self_eq_true] at h
      obtain rfl : d = v := Option.some.inj h
      exact List.mem_cons_self _ _
    · have hkb : (k == a) = false := beq_eq_false_iff_ne.mpr hk
      simp only [List.lookup, hkb] at h
      exact List.mem_cons_of_mem _ (ih h)

theorem lookup_some_of_mem_nodup (l : List (Nat × List Nat)) (k : Nat) (v : List Nat)
    (hnd : (l.map Prod.fst).Nodup) (h : (k, v) ∈ l) : l.lookup k = some v := by
  induction l with
  | nil => simp at h
  | cons e t ih =>
    obtain ⟨a, d⟩ := e
    rcases List.mem_cons.mp h with he | ht
    · obtain ⟨rfl, rfl⟩ := Prod.mk.injEq .. ▸ he
      simp [List.lookup]
    · have hk : k ≠ a := by
        rintro rfl
        exact (List.nodup_cons.mp (by simpa using hnd)).1
          (List.mem_map_of_mem Prod.fst ht)
      have hkb : (k == a) = false := beq_eq_false_iff_ne.mpr hk
      simp only [List.lookup, hkb]
      exact ih (List.nodup_cons.mp (by simpa using hnd)).2 ht

theorem perm_lookup_eq (w₁ w₂ : List (Nat × List Nat)) (k : Nat)
    (hp : w₁.Perm w₂) (hnd : (w₁.map Prod.fst).Nodup) :
    w₁.lookup k = w₂.lookup k := by
  have hnd₂ : (w₂.map Prod.fst).Nodup := ((hp.map Prod.fst).nodup_iff).mp hnd
  cases hc : w₁.lookup k with
  | some v =>
    exact (lookup_some_of_mem_nodup w₂ k v hnd₂
      (hp.mem_iff.mp (mem_of_lookup_some w₁ k v hc))).symm
  | none =>
    by_contra hne
    cases hc₂ : w₂.lookup k with
    | none => exact hne (hc₂ ▸ rfl)
    | some v =>
      have : w₁.lookup k = some v :=
        lookup_some_of_mem_nodup w₁ k v hnd
          (hp.mem_iff.mpr (mem_of_lookup_some w₂ k v hc₂))
      simp [hc] at this

/-! ## Basic facts about the chunk-directory operations -/

theorem readChunk_putChunk (i j : Nat) (d : List Nat) (s : FS) :
    readChunk (putChunk i d s) j =
      if j = i then some d else readChunk s j := by
  by_cases h : j = i
  · subst h
    simp [readChunk, putChunk, List.lookup]
  · have hb : (j == i) = false := beq_eq_false_iff_ne.mpr h
    simp [readChunk, putChunk, List.lookup, hb, h, lookup_filter_ne _ _ _ h]

theorem readChunk_removeChunk_ne (i j : Nat) (s : FS) (h : j ≠ i) :
    readChunk (removeChunk i s) j = readChunk s j :=
  lookup_filter_ne _ _ _ h

theorem readChunk_removeChunk_self (i : Nat) (s : FS) :
    readChunk (removeChunk i s) i = none :=
  lookup_filter_self _ _

theorem dirExists_putChunk (i : Nat) (d : List Nat) (s : FS) :
    (putChunk i d s).dirExists = s.dirExists := rfl

theorem dirExists_removeChunk (i : Nat) (s : FS) :
    (removeChunk i s).dirExists = s.dirExists := rfl

theorem readChunk_emptyFS (i : Nat) : readChunk emptyFS i = none := rfl

/-! ## Cleanup lemmas -/

theorem foldl_removeChunk_chunkFiles (keys : List Nat) (s : FS)
    (h : ∀ e ∈ s.chunkFiles, e.1 ∈ keys) :
    (keys.foldl (fun t i => removeChunk i t) s).chunkFiles = [] := by
  induction keys generalizing s with
  | nil =>
    simpa using List.eq_nil_iff_forall_not_mem.mpr (fun e he => by simpa using h e he)
  | cons k ks ih =>
    simp only [List.foldl_cons]
    apply ih
    intro e he
    simp only [removeChunk, List.mem_filter, bne_iff_ne] at he
    rcases List.mem_cons.mp (h e he.1) with hk | hk
    · exact absurd hk he.2
    · exact hk

theorem foldl_removeChunk_dirExists (keys : List Nat) (s : FS) :
    (keys.foldl (fun t i => removeChunk i t) s).dirExists = s.dirExists := by
  induction keys generalizing s with
  | nil => rfl
  | cons k ks ih => simpa [List.foldl_cons] using ih (removeChunk k s)

theorem clearChunks_chunkFiles (s : FS) : (clearChunks s).chunkFiles = [] :=
  foldl_removeChunk_chunkFiles _ s (fun _ he => List.mem_map_of_mem Prod.fst he)

theorem clearChunks_dirExists (s : FS) : (clearChunks s).dirExists = s.dirExists :=
  foldl_removeChunk_dirExists _ s

theorem clearChunks_of_empty (s : FS) (h : s.chunkFiles = []) :
    clearChunks s = s := by
  simp [clearChunks, h]

/-! ## Combine-loop lemmas -/

theorem combineLoop_dirExists (l : List Nat) (s : FS) (acc : List Nat) :
    (combineLoop l s acc).2.2.dirExists = s.dirExists := by
  induction l generalizing s acc with
  | nil => rfl
  | cons i rest ih =>
    cases h : readChunk s i with
    | none => simp [combineLoop, h]
    | some d =>
      simpa [combineLoop, h, dirExists_removeChunk] using
        ih (removeChunk i s) (acc ++ d)

theorem combineLoop_ok (l : List Nat) (s : FS) (acc : List Nat)
    (hnd : l.Nodup) (hall : ∀ j ∈ l, (readChunk s j).isSome) :
    (combineLoop l s acc).1 = true ∧
    (combineLoop l s acc).2.1 =
      acc ++ (l.map (fun j => (readChunk s j).getD [])).flatten := by
  induction l generalizing s acc with
  | nil => simp [combineLoop]
  | cons i rest ih =>
    obtain ⟨d, hd⟩ := Option.isSome_iff_exists.mp (hall i (List.mem_cons_self _ _))
    have hrest : ∀ j ∈ rest, (readChunk (removeChunk i s) j).isSome := by
      intro j hj
      have hji : j ≠ i := by
        rintro rfl
        exact (List.nodup_cons.mp hnd).1 hj
      rw [readChunk_removeChunk_ne _ _ _ hji]
      exact hall j (List.mem_cons_of_mem _ hj)
    have ihh := ih (removeChunk i s) (acc ++ d) (List.nodup_cons.mp hnd).2 hrest
    have hmap : rest.map (fun j => (readChunk (removeChunk i s) j).getD []) =
        rest.map (fun j => (readChunk s j).getD []) := by
      apply List.map_congr_left
      intro j hj
      have hji : j ≠ i := by
        rintro rfl
        exact (List.nodup_cons.mp hnd).1 hj
      rw [readChunk_removeChunk_ne _ _ _ hji]
    refine ⟨?_, ?_⟩
    · simpa [combineLoop, hd] using ihh.1
    · have := ihh.2
      rw [hmap] at this
      simp only [combineLoop, hd]
      rw [this]
      simp [hd]

theorem combineLoop_readChunk_not_mem (l : List Nat) (s : FS) (acc : List Nat)
    (i : Nat) (h : i ∉ l) :
    readChunk (combineLoop l s acc).2.2 i = readChunk s i := by
  induction l generalizing s acc with
  | nil => rfl
  | cons j rest ih =>
    have hij : i ≠ j := fun hc => h (hc ▸ List.mem_cons_self _ _)
    have hrest : i ∉ rest := fun hc => h (List.mem_cons_of_mem _ hc)
    cases hj : readChunk s j with
    | none => simp [combineLoop, hj]
    | some d =>
      simp only [combineLoop, hj]
      rw [ih (removeChunk j s) (acc ++ d) hrest]
      exact readChunk_removeChunk_ne _ _ _ hij

theorem combineLoop_readChunk_mem (l : List Nat) (s : FS) (acc : List Nat)
    (i : Nat) (hnd : l.Nodup) (hall : ∀ j ∈ l, (readChunk s j).isSome)
    (h : i ∈ l) :
    readChunk (combineLoop l s acc).2.2 i = none := by
  induction l generalizing s acc with
  | nil => simp at h
  | cons j rest ih =>
    obtain ⟨d, hd⟩ := Option.isSome_iff_exists.mp (hall j (List.mem_cons_self _ _))
    have hrest : ∀ j' ∈ rest, (readChunk (removeChunk j s) j').isSome := by
      intro j' hj'
      have hji : j' ≠ j := by
        rintro rfl
        exact (List.nodup_cons.mp hnd).1 hj'
      rw [readChunk_removeChunk_ne _ _ _ hji]
      exact hall j' (List.mem_cons_of_mem _ hj')
    rcases List.mem_cons.mp h with rfl | hi
    · have hnotin : i ∉ rest := (List.nodup_cons.mp hnd).1
      simp only [combineLoop, hd]
      rw [combineLoop_readChunk_not_mem rest (removeChunk i s) (acc ++ d) i hnotin]
      exact readChunk_removeChunk_self _ _
    · simp only [combineLoop, hd]
      exact ih (removeChunk j s) (acc ++ d) (List.nodup_cons.mp hnd).2 hrest hi

theorem combineLoop_chunkFiles_nil (l : List Nat) (s : FS) (acc : List Nat)
    (hnd : l.Nodup) (hall : ∀ j ∈ l, (readChunk s j).isSome)
    (hcl : ∀ e ∈ s.chunkFiles, e.1 ∈ l) :
    (combineLoop l s acc).2.2.chunkFiles = [] := by
  induction l generalizing s acc with
  | nil => simpa using List.eq_nil_iff_forall_not_mem.mpr (fun e he => by simpa using hcl e he)
  | cons j rest ih =>
    obtain ⟨d, hd⟩ := Option.isSome_iff_exists.mp (hall j (List.mem_cons_self _ _))
    have hrest : ∀ j' ∈ rest, (readChunk (removeChunk j s) j').isSome := by
      intro j' hj'
      have hji : j' ≠ j := by
        rintro rfl
        exact (List.nodup_cons.mp hnd).1 hj'
      rw [readChunk_removeChunk_ne _ _ _ hji]
      exact hall j' (List.mem_cons_of_mem _ hj')
    have hcl' : ∀ e ∈ (removeChunk j s).chunkFiles, e.1 ∈ rest := by
      intro e he
      simp only [removeChunk, List.mem_filter, bne_iff_ne] at he
      rcases List.mem_cons.mp (hcl e he.1) with hk | hk
      · exact absurd hk he.2
      · exact hk
    simp only [combineLoop, hd]
    exact ih (removeChunk j s) (acc ++ d) (List.nodup_cons.mp hnd).2 hrest hcl'

/-! ## Range-planner arithmetic -/

theorem numChunks_eq_ceilDiv (fileSize chunkSize : Nat) :
    numChunks fileSize chunkSize = fileSize ⌈/⌉ chunkSize :=
  (Nat.ceilDiv_eq_add_pred_div fileSize chunkSize).symm

theorem numChunks_le_iff (fileSize chunkSize m : Nat) (hc : 0 < chunkSize) :
    numChunks fileSize chunkSize ≤ m ↔ fileSize ≤ chunkSize * m := by
  rw [numChunks_eq_ceilDiv]
  exact ceilDiv_le_iff_le_mul hc

theorem le_mul_numChunks (fileSize chunkSize : Nat) (hc : 0 < chunkSize) :
    fileSize ≤ chunkSize * numChunks fileSize chunkSize :=
  (numChunks_le_iff fileSize chunkSize _ hc).mp le_rfl

theorem pos_of_lt_numChunks (fileSize chunkSize i : Nat) (hc : 0 < chunkSize)
    (hi : i < numChunks fileSize chunkSize) : 0 < fileSize := by
  rcases Nat.eq_zero_or_pos fileSize with h0 | h0
  · subst h0
    have : numChunks 0 chunkSize ≤ 0 := (numChunks_le_iff 0 chunkSize 0 hc).mpr (by simp)
    omega
  · exact h0

theorem div_lt_numChunks (fileSize chunkSize b : Nat) (hc : 0 < chunkSize)
    (hb : b < fileSize) : b / chunkSize < numChunks fileSize chunkSize := by
  by_contra h
  push_neg at h
  have h1 : fileSize ≤ chunkSize * (b / chunkSize) :=
    le_trans (le_mul_numChunks fileSize chunkSize hc)
      (Nat.mul_le_mul_left chunkSize h)
  have h2 : b / chunkSize * chunkSize ≤ b := Nat.div_mul_le_self b chunkSize
  rw [Nat.mul_comm] at h1
  omega

theorem mul_lt_of_lt_numChunks (fileSize chunkSize i : Nat) (hc : 0 < chunkSize)
    (hi : i < numChunks fileSize chunkSize) : i * chunkSize < fileSize := by
  by_contra h
  push_neg at h
  have : numChunks fileSize chunkSize ≤ i :=
    (numChunks_le_iff fileSize chunkSize i hc).mpr (by rwa [Nat.mul_comm])
  omega

/-- A byte `b` lies in chunk `i`'s inclusive range exactly when `b` is a
real byte of the resource and `i` is `b`'s chunk index `b / chunkSize`. -/
theorem mem_chunkRange_iff (fileSize chunkSize i b : Nat) (hc : 0 < chunkSize)
    (hi : i < numChunks fileSize chunkSize) :
    (chunkStart chunkSize i ≤ b ∧ b ≤ chunkEnd fileSize chunkSize i) ↔
      (b < fileSize ∧ b / chunkSize = i) := by
  have hfs : 0 < fileSize := pos_of_lt_numChunks fileSize chunkSize i hc hi
  have hic : 0 < (i + 1) * chunkSize := Nat.mul_pos (Nat.succ_pos i) hc
  constructor
  · rintro ⟨hlo, hhi⟩
    have hble : b ≤ fileSize - 1 :=
      le_trans hhi (min_le_right _ _)
    have hbfs : b < fileSize := by omega
    refine ⟨hbfs, ?_⟩
    have hhi2 : b ≤ (i + 1) * chunkSize - 1 := le_trans hhi (min_le_left _ _)
    have hblt : b < (i + 1) * chunkSize := by omega
    exact Nat.div_eq_of_lt_le (by simpa [chunkStart] using hlo) hblt
  · rintro ⟨hbfs, rfl⟩
    have hlo : b / chunkSize * chunkSize ≤ b := Nat.div_mul_le_self b chunkSize
    have hdm := Nat.div_add_mod b chunkSize
    have hml : b % chunkSize < chunkSize := Nat.mod_lt _ hc
    have hblt : b < (b / chunkSize + 1) * chunkSize := by
      have expand : (b / chunkSize + 1) * chunkSize =
          chunkSize * (b / chunkSize) + chunkSize := by ring
      omega
    exact ⟨hlo, le_min (by omega) (by omega)⟩

/-- Consecutive planned ranges are contiguous: the next range starts one
byte past the previous range's inclusive end. -/
theorem chunkRange_contiguous (fileSize chunkSize i : Nat) (hc : 0 < chunkSize)
    (hi : i + 1 < numChunks fileSize chunkSize) :
    chunkStart chunkSize (i + 1) = chunkEnd fileSize chunkSize i + 1 := by
  have hlt : (i + 1) * chunkSize < fileSize :=
    mul_lt_of_lt_numChunks fileSize chunkSize (i + 1) hc hi
  have hpos : 0 < (i + 1) * chunkSize := Nat.mul_pos (Nat.succ_pos i) hc
  have hmin : chunkEnd fileSize chunkSize i = (i + 1) * chunkSize - 1 := by
    have : (i + 1) * chunkSize - 1 ≤ fileSize - 1 := by omega
    simpa [chunkEnd] using min_eq_left this
  simp [chunkStart, hmin]
  omega

/-- Each planned range is nonempty (`startByte ≤ endByte`). -/
theorem chunkStart_le_chunkEnd (fileSize chunkSize i : Nat) (hc : 0 < chunkSize)
    (hi : i < numChunks fileSize chunkSize) :
    chunkStart chunkSize i ≤ chunkEnd fileSize chunkSize i := by
  have h1 : i * chunkSize < fileSize :=
    mul_lt_of_lt_numChunks fileSize chunkSize i hc hi
  have h3 : (i + 1) * chunkSize = i * chunkSize + chunkSize := by ring
  simp only [chunkStart, chunkEnd]
  exact le_min (by omega) (by omega)

/-! ## Fetch-phase lemmas -/

theorem readChunk_foldl_writes (chunkOk : Nat → Bool) (payload : Nat → List Nat)
    (l : List Nat) (s : FS) (j : Nat) :
    readChunk (l.foldl (fun t i => if chunkOk i then putChunk i (payload i) t else t) s) j =
      if j ∈ l ∧ chunkOk j then some (payload j) else readChunk s j := by
  induction l generalizing s with
  | nil => simp
  | cons a t ih =>
    simp only [List.foldl_cons]
    rw [ih]
    by_cases hjt : j ∈ t ∧ chunkOk j = true
    · simp [hjt, hjt.1, hjt.2]
    · rw [if_neg hjt]
      by_cases hja : j = a
      · subst hja
        cases hok : chunkOk j with
        | true => simp [hok, readChunk_putChunk]
        | false => simp [hok, hjt]
      · have hmem : (j ∈ a :: t ∧ chunkOk j = true) ↔ (j ∈ t ∧ chunkOk j = true) := by
          constructor
          · rintro ⟨hm, hok⟩
            rcases List.mem_cons.mp hm with rfl | hm2
            · exact absurd rfl hja
            · exact ⟨hm2, hok⟩
          · rintro ⟨hm, hok⟩
            exact ⟨List.mem_cons_of_mem _ hm, hok⟩
        rw [if_neg (fun hx => hjt (hmem.mp hx))]
        cases hok : chunkOk a with
        | true => simp [readChunk_putChunk, hja]
        | false => simp

theorem readChunk_fetchPhase (n : Nat) (chunkOk : Nat → Bool)
    (payload : Nat → List Nat) (j : Nat) :
    readChunk (fetchPhase n chunkOk payload) j =
      if j < n ∧ chunkOk j then some (payload j) else none := by
  rw [fetchPhase, readChunk_foldl_writes]
  simp [readChunk_emptyFS, List.mem_range]

theorem keys_foldl_writes (chunkOk : Nat → Bool) (payload : Nat → List Nat)
    (l : List Nat) (s : FS) (e : Nat × List Nat)
    (he : e ∈ (l.foldl (fun t i => if chunkOk i then putChunk i (payload i) t else t) s).chunkFiles) :
    e.1 ∈ l ∨ e ∈ s.chunkFiles := by
  induction l generalizing s with
  | nil => exact Or.inr he
  | cons a t ih =>
    simp only [List.foldl_cons] at he
    rcases ih _ he with h | h
    · exact Or.inl (List.mem_cons_of_mem _ h)
    · cases hok : chunkOk a with
      | true =>
        rw [hok] at h
        simp only [if_pos rfl, putChunk] at h
        rcases List.mem_cons.mp h with rfl | h2
        · exact Or.inl (List.mem_cons_self _ _)
        · exact Or.inr (List.mem_of_mem_filter h2)
      | false =>
        rw [hok] at h
        simp at h
        exact Or.inr h

theorem keys_fetchPhase (n : Nat) (chunkOk : Nat → Bool)
    (payload : Nat → List Nat) (e : Nat × List Nat)
    (he : e ∈ (fetchPhase n chunkOk payload).chunkFiles) : e.1 ∈ List.range n := by
  rcases keys_foldl_writes chunkOk payload (List.range n) emptyFS e he with h | h
  · exact h
  · simp [emptyFS] at h

theorem dirExists_foldl_writes (chunkOk : Nat → Bool) (payload : Nat → List Nat)
    (l : List Nat) (s : FS) :
    (l.foldl (fun t i => if chunkOk i then putChunk i (payload i) t else t) s).dirExists =
      s.dirExists := by
  induction l generalizing s with
  | nil => rfl
  | cons a t ih =>
    simp only [List.foldl_cons]
    rw [ih]
    cases chunkOk a <;> simp [putChunk]

theorem dirExists_fetchPhase (n : Nat) (chunkOk : Nat → Bool)
    (payload : Nat → List Nat) :
    (fetchPhase n chunkOk payload).dirExists = true :=
  dirExists_foldl_writes chunkOk payload (List.range n) emptyFS

/-! ## Combine-phase and merge-phase lemmas -/

theorem combineChunks_spec (n : Nat) (s : FS)
    (hall : ∀ j ∈ List.range n, (readChunk s j).isSome) :
    (combineChunks n s).1 = true ∧
    (combineChunks n s).2.1 =
      ((List.range n).map (fun j => (readChunk s j).getD [])).flatten ∧
    (combineChunks n s).2.2.dirExists = s.dirExists := by
  have h := combineLoop_ok (List.range n) s [] (List.nodup_range n) hall
  refine ⟨h.1, by simpa [combineChunks] using h.2, ?_⟩
  simpa [combineChunks] using combineLoop_dirExists (List.range n) s []

theorem combineChunks_chunkFiles_nil (n : Nat) (s : FS)
    (hall : ∀ j ∈ List.range n, (readChunk s j).isSome)
    (hcl : ∀ e ∈ s.chunkFiles, e.1 ∈ List.range n) :
    (combineChunks n s).2.2.chunkFiles = [] := by
  simpa [combineChunks] using
    combineLoop_chunkFiles_nil (List.range n) s [] (List.nodup_range n) hall hcl

theorem combineChunks_readChunk_mem (n : Nat) (s : FS)
    (hall : ∀ j ∈ List.range n, (readChunk s j).isSome)
    (i : Nat) (hi : i < n) :
    readChunk (combineChunks n s).2.2 i = none := by
  simpa [combineChunks] using
    combineLoop_readChunk_mem (List.range n) s [] i (List.nodup_range n) hall
      (List.mem_range.mpr hi)

/-- After a fully successful fetch phase, the merge phase writes the
index-ordered concatenation, removes every chunk file, removes the
directory, and reports success. -/
theorem mergePhase_complete (n : Nat) (fs1 : FS)
    (hall : ∀ j ∈ List.range n, (readChunk fs1 j).isSome)
    (hcl : ∀ e ∈ fs1.chunkFiles, e.1 ∈ List.range n)
    (hdir : fs1.dirExists = true) :
    mergePhase n fs1 =
      ⟨⟨false, []⟩,
       some ((List.range n).map (fun j => (readChunk fs1 j).getD [])).flatten,
       n, true⟩ := by
  obtain ⟨hflag, hout, hde⟩ := combineChunks_spec n fs1 hall
  have hnil := combineChunks_chunkFiles_nil n fs1 hall hcl
  rcases hC : combineChunks n fs1 with ⟨flag, out, X⟩
  rw [hC] at hflag hout hde hnil
  simp only at hflag hout hde hnil
  subst hflag
  subst hout
  obtain ⟨xd, xf⟩ := X
  simp only at hde hnil
  subst hnil
  rw [hdir] at hde
  subst hde
  simp [mergePhase, hC, rmdirChunkDir, clearChunks]

/-! ## Completion-order writes -/

theorem readChunk_applyWrites (w : List (Nat × List Nat)) (s : FS) (k : Nat)
    (hnd : (w.map Prod.fst).Nodup) :
    readChunk (applyWrites w s) k =
      match w.lookup k with
      | some v => some v
      | none => readChunk s k := by
  induction w generalizing s with
  | nil => rfl
  | cons e t ih =>
    obtain ⟨a, d⟩ := e
    have hnd2 : (t.map Prod.fst).Nodup := (List.nodup_cons.mp (by simpa using hnd)).2
    have hna : a ∉ t.map Prod.fst := (List.nodup_cons.mp (by simpa using hnd)).1
    simp only [applyWrites, List.foldl_cons]
    rw [show t.foldl (fun u e => putChunk e.1 e.2 u) (putChunk a d s) =
      applyWrites t (putChunk a d s) from rfl]
    rw [ih (putChunk a d s) hnd2]
    by_cases hk : k = a
    · subst hk
      rw [lookup_none_of_not_mem_keys t k hna]
      simp [List.lookup, readChunk_putChunk]
    · have hkb : (k == a) = false := beq_eq_false_iff_ne.mpr hk
      simp only [List.lookup, hkb]
      cases htk : t.lookup k with
      | some v => rfl
      | none =>
        rw [readChunk_putChunk]
        simp [hk]

theorem dirExists_applyWrites (w : List (Nat × List Nat)) (s : FS) :
    (applyWrites w s).dirExists = s.dirExists := by
  induction w generalizing s with
  | nil => rfl
  | cons e t ih =>
    simpa [applyWrites, List.foldl_cons, putChunk] using ih (putChunk e.1 e.2 s)

/-! ## Retry-loop lemmas -/

theorem retryFrom_all_err (outcome : Nat → AttemptOutcome) (req : Nat × Nat)
    (h : ∀ k, outcome k = .err) :
    ∀ (remaining attempt : Nat), 0 < remaining →
      retryFrom outcome req attempt remaining = ⟨false, attempt + remaining, none, req⟩ := by
  intro remaining
  induction remaining with
  | zero => intro attempt hr; omega
  | succ r ih =>
    intro attempt _
    have hstep : retryFrom outcome req attempt (r + 1) =
        (if r = 0 then ⟨false, attempt + 1, none, req⟩
         else retryFrom outcome req (attempt + 1) r) := by
      rw [retryFrom, h attempt]
    rw [hstep]
    by_cases hr : r = 0
    · subst hr
      simp
    · rw [if_neg hr, ih (attempt + 1) (Nat.pos_of_ne_zero hr)]
      have harith : attempt + 1 + r = attempt + (r + 1) := by omega
      rw [harith]

theorem download_chunk_with_retry_all_err (startByte endByte : Nat)
    (outcome : Nat → AttemptOutcome) (h : ∀ k, outcome k = .err) :
    download_chunk_with_retry startByte endByte outcome =
      ⟨false, RETRY_ATTEMPTS, none, (startByte, endByte)⟩ := by
  have := retryFrom_all_err outcome (startByte, endByte) h RETRY_ATTEMPTS 0 (by decide)
  simpa [download_chunk_with_retry] using this

theorem download_chunk_with_retry_first_ok (startByte endByte : Nat)
    (outcome : Nat → AttemptOutcome) (p : List Nat) (h : outcome 0 = .ok p) :
    download_chunk_with_retry startByte endByte outcome =
      ⟨true, 1, some p, (startByte, endByte)⟩ := by
  have step : download_chunk_with_retry startByte endByte outcome =
      match outcome 0 with
      | .ok payload => ⟨true, 1, some payload, (startByte, endByte)⟩
      | .err =>
        if (2 : Nat) = 0 then ⟨false, 1, none, (startByte, endByte)⟩
        else retryFrom outcome (startByte, endByte) 1 2 := rfl
  rw [step, h]

/-! ## Gate lemmas -/

theorem gateRun_invariant (cap : Nat) (tr : List GateEvent) :
    ∀ (s s2 : GateState), s.value + s.active = cap →
      gateRun s tr = some s2 → s2.value + s2.active = cap := by
  induction tr with
  | nil =>
    intro s s2 hs h
    obtain rfl : s = s2 := Option.some.inj h
    exact hs
  | cons e es ih =>
    intro s s2 hs h
    cases e with
    | acquire =>
      by_cases hv : s.value = 0
      · simp [gateRun, gateStep, hv] at h
      · simp only [gateRun, gateStep, if_neg hv] at h
        refine ih ⟨s.value - 1, s.active + 1⟩ s2 ?_ h
        show s.value - 1 + (s.active + 1) = cap
        omega
    | release =>
      by_cases ha : s.active = 0
      · simp [gateRun, gateStep, ha] at h
      · simp only [gateRun, gateStep, if_neg ha] at h
        refine ih ⟨s.value + 1, s.active - 1⟩ s2 ?_ h
        show s.value + 1 + (s.active - 1) = cap
        omega

/-! # Claim theorems -/

/-- C1: for every resource size and every positive segment length, the
range plan consists of nonempty, contiguous, non-overlapping inclusive
ranges whose union is exactly `[0, resourceSize - 1]`, with segment count
equal to `ceil(resourceSize / segmentLength)` (stated by its Galois
characterisation: the count is `≤ m` exactly when `resourceSize ≤
segmentLength * m`); membership of a byte `b` in range `i` is equivalent
to `b < resourceSize ∧ b / segmentLength = i`, which gives both coverage
(with the index-in-bounds fact) and non-overlap (uniqueness of `i`).
Scenario A: for resourceSize 10000000 and segmentLength 4194304 the plan
is exactly `[0,4194303], [4194304,8388607], [8388608,9999999]`. -/
theorem C1_range_plan (fileSize chunkSize : Nat) (hc : 0 < chunkSize) :
    (∀ m, numChunks fileSize chunkSize ≤ m ↔ fileSize ≤ chunkSize * m) ∧
    (∀ b, b < fileSize → b / chunkSize < numChunks fileSize chunkSize) ∧
    (∀ i b, i < numChunks fileSize chunkSize →
      ((chunkStart chunkSize i ≤ b ∧ b ≤ chunkEnd fileSize chunkSize i) ↔
        (b < fileSize ∧ b / chunkSize = i))) ∧
    (∀ i, i < numChunks fileSize chunkSize →
      chunkStart chunkSize i ≤ chunkEnd fileSize chunkSize i) ∧
    (∀ i, i + 1 < numChunks fileSize chunkSize →
      chunkStart chunkSize (i + 1) = chunkEnd fileSize chunkSize i + 1) ∧
    rangePlan 10000000 4194304 =
      [(0, 4194303), (4194304, 8388607), (8388608, 9999999)] :=
  ⟨fun m => numChunks_le_iff fileSize chunkSize m hc,
   fun b hb => div_lt_numChunks fileSize chunkSize b hc hb,
   fun i b hi => mem_chunkRange_iff fileSize chunkSize i b hc hi,
   fun i hi => chunkStart_le_chunkEnd fileSize chunkSize i hc hi,
   fun i hi => chunkRange_contiguous fileSize chunkSize i hc hi,
   by decide⟩

/-- Witness for C1 at fileSize 10, chunkSize 4. -/
theorem C1_range_plan_witness :
    (∀ m, numChunks 10 4 ≤ m ↔ 10 ≤ 4 * m) ∧
    (∀ b, b < 10 → b / 4 < numChunks 10 4) ∧
    (∀ i b, i < numChunks 10 4 →
      ((chunkStart 4 i ≤ b ∧ b ≤ chunkEnd 10 4 i) ↔ (b < 10 ∧ b / 4 = i))) ∧
    (∀ i, i < numChunks 10 4 → chunkStart 4 i ≤ chunkEnd 10 4 i) ∧
    (∀ i, i + 1 < numChunks 10 4 → chunkStart 4 (i + 1) = chunkEnd 10 4 i + 1) ∧
    rangePlan 10000000 4194304 =
      [(0, 4194303), (4194304, 8388607), (8388608, 9999999)] :=
  C1_range_plan 10 4 (by decide)

/-- C2 counterexample: the claim says a fetch whose every attempt fails
performs exactly maxRetries + 1 = 4 attempts; the code's loop is
`for attempt in range(RETRY_ATTEMPTS)` with `RETRY_ATTEMPTS = 3`, so an
all-failing fetch performs 3 attempts, not `RETRY_ATTEMPTS + 1`. -/
theorem C2_retry_counterexample :
    (download_chunk_with_retry 0 4194303 (fun _ => AttemptOutcome.err)).success = false ∧
    (download_chunk_with_retry 0 4194303 (fun _ => AttemptOutcome.err)).attemptsMade = 3 ∧
    (download_chunk_with_retry 0 4194303 (fun _ => AttemptOutcome.err)).attemptsMade ≠
      RETRY_ATTEMPTS + 1 := by
  decide

/-- C2 amended: a fetch whose every attempt fails with a retryable error
performs exactly `RETRY_ATTEMPTS = 3` total attempts (the initial attempt
plus two retries) — no more, no fewer — persists nothing, and returns
failure, having requested exactly `[startByte, endByte]`. -/
theorem C2_retry_amended (startByte endByte : Nat)
    (outcome : Nat → AttemptOutcome) (h : ∀ k, outcome k = AttemptOutcome.err) :
    download_chunk_with_retry startByte endByte outcome =
      ⟨false, RETRY_ATTEMPTS, none, (startByte, endByte)⟩ :=
  download_chunk_with_retry_all_err startByte endByte outcome h

/-- Witness for C2 amended. -/
theorem C2_retry_amended_witness :
    download_chunk_with_retry 5 9 (fun _ => AttemptOutcome.err) =
      ⟨false, RETRY_ATTEMPTS, none, (5, 9)⟩ :=
  C2_retry_amended 5 9 (fun _ => AttemptOutcome.err) (fun _ => rfl)

/-- C3 counterexample: the claim says the temporary directory and its
segment files are removed in full on every failure path; in a run where
every fetch fails, `download_file`'s `finally` block unlinks the chunk
files but never removes `CHUNK_DIR` itself (the `rmdir` on line 141 is
only on the success path), so the failed run ends with the directory
still present. -/
theorem C3_cleanup_counterexample :
    (downloadFileRun 10000000 (fun _ => false) (fun _ => [])).ok = false ∧
    (downloadFileRun 10000000 (fun _ => false) (fun _ => [])).output = none ∧
    (downloadFileRun 10000000 (fun _ => false) (fun _ => [])).fs.chunkFiles = [] ∧
    (downloadFileRun 10000000 (fun _ => false) (fun _ => [])).fs.dirExists = true := by
  decide

/-- C3 amended: every run removes all segment files (on success they are
consumed during the merge, on failure the `finally` cleanup unlinks
them), a successful run produces the full concatenated output and removes
the temporary directory, and a failed run exposes no output file — but on
failure the (emptied) temporary directory itself is left behind. -/
theorem C3_cleanup_amended (fileSize : Nat) (chunkOk : Nat → Bool)
    (payload : Nat → List Nat) :
    (downloadFileRun fileSize chunkOk payload).fs.chunkFiles = [] ∧
    ((downloadFileRun fileSize chunkOk payload).ok = true →
      (downloadFileRun fileSize chunkOk payload).fs.dirExists = false ∧
      (downloadFileRun fileSize chunkOk payload).output =
        some ((List.range (numChunks fileSize CHUNK_SIZE)).map payload).flatten) ∧
    ((downloadFileRun fileSize chunkOk payload).ok = false →
      (downloadFileRun fileSize chunkOk payload).output = none ∧
      (downloadFileRun fileSize chunkOk payload).fs.dirExists = true) := by
  by_cases hall : (List.range (numChunks fileSize CHUNK_SIZE)).all chunkOk
  · have hmem : ∀ j ∈ List.range (numChunks fileSize CHUNK_SIZE), chunkOk j = true :=
      List.all_eq_true.mp hall
    have hsome : ∀ j ∈ List.range (numChunks fileSize CHUNK_SIZE),
        (readChunk (fetchPhase (numChunks fileSize CHUNK_SIZE) chunkOk payload) j).isSome := by
      intro j hj
      rw [readChunk_fetchPhase]
      simp [List.mem_range.mp hj, hmem j hj]
    have hrun : downloadFileRun fileSize chunkOk payload =
        mergePhase (numChunks fileSize CHUNK_SIZE)
          (fetchPhase (numChunks fileSize CHUNK_SIZE) chunkOk payload) := by
      simp only [downloadFileRun]
      rw [if_pos hall]
    have hmp := mergePhase_complete (numChunks fileSize CHUNK_SIZE)
      (fetchPhase (numChunks fileSize CHUNK_SIZE) chunkOk payload) hsome
      (fun e he => keys_fetchPhase (numChunks fileSize CHUNK_SIZE) chunkOk payload e he)
      (dirExists_fetchPhase (numChunks fileSize CHUNK_SIZE) chunkOk payload)
    have hout : ((List.range (numChunks fileSize CHUNK_SIZE)).map
          (fun j => (readChunk (fetchPhase (numChunks fileSize CHUNK_SIZE) chunkOk payload) j).getD [])) =
        (List.range (numChunks fileSize CHUNK_SIZE)).map payload := by
      apply List.map_congr_left
      intro j hj
      rw [readChunk_fetchPhase]
      simp [List.mem_range.mp hj, hmem j hj]
    rw [hrun, hmp, hout]
    refine ⟨rfl, fun _ => ⟨rfl, rfl⟩, fun hbad => ?_⟩
    simp at hbad
  · have hrun : downloadFileRun fileSize chunkOk payload =
        ⟨clearChunks (fetchPhase (numChunks fileSize CHUNK_SIZE) chunkOk payload),
         none, numChunks fileSize CHUNK_SIZE, false⟩ := by
      simp only [downloadFileRun]
      rw [if_neg hall]
    rw [hrun]
    refine ⟨clearChunks_chunkFiles _, fun hbad => ?_, fun _ => ⟨rfl, ?_⟩⟩
    · simp at hbad
    · rw [clearChunks_dirExists]
      exact dirExists_fetchPhase (numChunks fileSize CHUNK_SIZE) chunkOk payload

/-- Witness for C3 amended. -/
theorem C3_cleanup_amended_witness :
    (downloadFileRun 1 (fun _ => true) (fun _ => [7])).fs.chunkFiles = [] ∧
    ((downloadFileRun 1 (fun _ => true) (fun _ => [7])).ok = true →
      (downloadFileRun 1 (fun _ => true) (fun _ => [7])).fs.dirExists = false ∧
      (downloadFileRun 1 (fun _ => true) (fun _ => [7])).output =
        some ((List.range (numChunks 1 CHUNK_SIZE)).map (fun _ => [7])).flatten) ∧
    ((downloadFileRun 1 (fun _ => true) (fun _ => [7])).ok = false →
      (downloadFileRun 1 (fun _ => true) (fun _ => [7])).output = none ∧
      (downloadFileRun 1 (fun _ => true) (fun _ => [7])).fs.dirExists = true) :=
  C3_cleanup_amended 1 (fun _ => true) (fun _ => [7])

/-- C4: when every planned index was written by some completed fetch
(writes keyed by index, in completion order), the merge loop — which by
definition walks indices in ascending order, appending each chunk to the
output and unlinking it immediately after — succeeds, produces exactly
the concatenation of the chunk payloads by index, yields the same output
bytes for any permutation of the completion order, and leaves no chunk
file of the plan behind. -/
theorem C4_reassembly (n : Nat) (w1 w2 : List (Nat × List Nat))
    (hperm : w1.Perm w2) (hnd : (w1.map Prod.fst).Nodup)
    (hall : ∀ i, i < n → (w1.lookup i).isSome = true) :
    (combineChunks n (applyWrites w1 emptyFS)).1 = true ∧
    (combineChunks n (applyWrites w1 emptyFS)).2.1 =
      ((List.range n).map (fun i => (w1.lookup i).getD [])).flatten ∧
    (combineChunks n (applyWrites w1 emptyFS)).2.1 =
      (combineChunks n (applyWrites w2 emptyFS)).2.1 ∧
    (∀ i, i < n →
      readChunk (combineChunks n (applyWrites w1 emptyFS)).2.2 i = none) := by
  have hnd2 : (w2.map Prod.fst).Nodup := ((hperm.map Prod.fst).nodup_iff).mp hnd
  have h1 : ∀ k, readChunk (applyWrites w1 emptyFS) k = w1.lookup k := by
    intro k
    rw [readChunk_applyWrites w1 emptyFS k hnd]
    cases w1.lookup k <;> rfl
  have h2 : ∀ k, readChunk (applyWrites w2 emptyFS) k = w1.lookup k := by
    intro k
    rw [readChunk_applyWrites w2 emptyFS k hnd2]
    rw [← perm_lookup_eq w1 w2 k hperm hnd]
    cases w1.lookup k <;> rfl
  have hall1 : ∀ j ∈ List.range n, (readChunk (applyWrites w1 emptyFS) j).isSome := by
    intro j hj
    rw [h1]
    exact hall j (List.mem_range.mp hj)
  have hall2 : ∀ j ∈ List.range n, (readChunk (applyWrites w2 emptyFS) j).isSome := by
    intro j hj
    rw [h2]
    exact hall j (List.mem_range.mp hj)
  obtain ⟨hflag1, hout1, -⟩ := combineChunks_spec n (applyWrites w1 emptyFS) hall1
  obtain ⟨-, hout2, -⟩ := combineChunks_spec n (applyWrites w2 emptyFS) hall2
  have hmap1 : (List.range n).map (fun j => (readChunk (applyWrites w1 emptyFS) j).getD []) =
      (List.range n).map (fun i => (w1.lookup i).getD []) :=
    List.map_congr_left (fun j _ => by rw [h1])
  have hmap2 : (List.range n).map (fun j => (readChunk (applyWrites w2 emptyFS) j).getD []) =
      (List.range n).map (fun i => (w1.lookup i).getD []) :=
    List.map_congr_left (fun j _ => by rw [h2])
  refine ⟨hflag1, by rw [hout1, hmap1], ?_, ?_⟩
  · rw [hout1, hmap1, hout2, hmap2]
  · intro i hi
    exact combineChunks_readChunk_mem n (applyWrites w1 emptyFS) hall1 i hi

/-- Witness for C4 at two writes completing in either order. -/
theorem C4_reassembly_witness :
    (combineChunks 2 (applyWrites [(0, [5]), (1, [6, 7])] emptyFS)).1 = true ∧
    (combineChunks 2 (applyWrites [(0, [5]), (1, [6, 7])] emptyFS)).2.1 =
      ((List.range 2).map
        (fun i => (([(0, [5]), (1, [6, 7])] : List (Nat × List Nat)).lookup i).getD [])).flatten ∧
    (combineChunks 2 (applyWrites [(0, [5]), (1, [6, 7])] emptyFS)).2.1 =
      (combineChunks 2 (applyWrites [(1, [6, 7]), (0, [5])] emptyFS)).2.1 ∧
    (∀ i, i < 2 →
      readChunk (combineChunks 2 (applyWrites [(0, [5]), (1, [6, 7])] emptyFS)).2.2 i = none) :=
  C4_reassembly 2 [(0, [5]), (1, [6, 7])] [(1, [6, 7]), (0, [5])]
    (by decide) (by decide) (by decide)

/-- C5 counterexample: the claim says an attempt is persisted only when
the payload length is exactly `endByte - startByte + 1`; for the range
`[0, 9]` (expected 10 bytes) an attempt returning only 5 bytes is still
treated as success on the first attempt, its short payload is written to
the chunk file, and no retry happens. -/
theorem C5_short_read_counterexample :
    (download_chunk_with_retry 0 9 (fun _ => AttemptOutcome.ok [1, 2, 3, 4, 5])).success = true ∧
    (download_chunk_with_retry 0 9 (fun _ => AttemptOutcome.ok [1, 2, 3, 4, 5])).persisted =
      some [1, 2, 3, 4, 5] ∧
    (download_chunk_with_retry 0 9 (fun _ => AttemptOutcome.ok [1, 2, 3, 4, 5])).attemptsMade = 1 ∧
    List.length [1, 2, 3, 4, 5] ≠ 9 - 0 + 1 := by
  decide

/-- C5 amended: any attempt whose HTTP request succeeds is treated as a
success and its payload persisted as-is, whatever its length — the code
performs no comparison of the received byte count against
`endByte - startByte + 1`, so a short read is not detected and not
retried. -/
theorem C5_short_read_amended (startByte endByte : Nat)
    (outcome : Nat → AttemptOutcome) (p : List Nat)
    (h : outcome 0 = AttemptOutcome.ok p) :
    download_chunk_with_retry startByte endByte outcome =
      ⟨true, 1, some p, (startByte, endByte)⟩ :=
  download_chunk_with_retry_first_ok startByte endByte outcome p h

/-- Witness for C5 amended. -/
theorem C5_short_read_amended_witness :
    download_chunk_with_retry 0 9 (fun _ => AttemptOutcome.ok [1, 2, 3]) =
      ⟨true, 1, some [1, 2, 3], (0, 9)⟩ :=
  C5_short_read_amended 0 9 (fun _ => AttemptOutcome.ok [1, 2, 3]) [1, 2, 3] rfl

/-- C6 counterexample: the claim says two concurrent runs never share
segment artifact keys; `CHUNK_DIR` is the fixed module constant
`chunk_temp` and chunk files are named purely by index, so a run of
10000000 bytes and a run of 1 byte both use the key
`chunk_temp/chunk_0000` — the key sets are not disjoint. -/
theorem C6_store_collision_counterexample :
    chunkFileName 0 ∈ runKeys 10000000 ∧ chunkFileName 0 ∈ runKeys 1 ∧
    ¬ (∀ k ∈ runKeys 10000000, k ∉ runKeys 1) := by
  decide

/-- C6 amended: the store namespace is not run-scoped: it is the fixed
directory `chunk_temp`, and any two runs with a nonempty plan share the
chunk-0 key, so concurrent downloads in the same working directory
collide on segment artifacts. -/
theorem C6_store_collision_amended (sizeA sizeB : Nat)
    (ha : 0 < sizeA) (hb : 0 < sizeB) :
    CHUNK_DIR = "chunk_temp" ∧
    chunkFileName 0 ∈ runKeys sizeA ∧ chunkFileName 0 ∈ runKeys sizeB := by
  have hpos : ∀ s, 0 < s → 0 < numChunks s CHUNK_SIZE := by
    intro s hs
    by_contra hcon
    push_neg at hcon
    have := (numChunks_le_iff s CHUNK_SIZE 0 (by decide)).mp (by omega)
    omega
  exact ⟨rfl,
    List.mem_map_of_mem chunkFileName (List.mem_range.mpr (hpos sizeA ha)),
    List.mem_map_of_mem chunkFileName (List.mem_range.mpr (hpos sizeB hb))⟩

/-- Witness for C6 amended. -/
theorem C6_store_collision_amended_witness :
    CHUNK_DIR = "chunk_temp" ∧
    chunkFileName 0 ∈ runKeys 1 ∧ chunkFileName 0 ∈ runKeys 2 :=
  C6_store_collision_amended 1 2 (by decide) (by decide)

/-- C7: in every schedulable trace of acquire/release events starting
from a fresh semaphore of capacity `cap` (acquire enabled only while the
counter is positive, release performed only by a slot holder, as
`async with semaphore` guarantees), the number of fetches holding a slot
never exceeds `cap`; the program instantiates `cap` with
`MAX_CONCURRENT_CHUNKS = 100`. -/
theorem C7_gate_bound (cap : Nat) (tr : List GateEvent) (s : GateState)
    (h : gateRun (gateInit cap) tr = some s) : s.active ≤ cap := by
  have hinv := gateRun_invariant cap tr (gateInit cap) s (by simp [gateInit]) h
  omega

/-- Witness for C7 at the default capacity. -/
theorem C7_gate_bound_witness :
    (GateState.mk 99 1).active ≤ MAX_CONCURRENT_CHUNKS :=
  C7_gate_bound MAX_CONCURRENT_CHUNKS [GateEvent.acquire] ⟨99, 1⟩ (by decide)

/-- C8: a zero-size resource yields a plan of 0 segments, the run
performs 0 fetches, succeeds, creates the output file with content of
length 0 (the empty byte sequence), and cleans up the temporary
directory. -/
theorem C8_zero_size (chunkOk : Nat → Bool) (payload : Nat → List Nat) :
    numChunks 0 CHUNK_SIZE = 0 ∧ rangePlan 0 CHUNK_SIZE = [] ∧
    downloadFileRun 0 chunkOk payload = ⟨⟨false, []⟩, some [], 0, true⟩ :=
  ⟨rfl, rfl, rfl⟩

/-- C9: the `finally`-block cleanup is idempotent and total: it never
raises (it is a total function of the store state; the code swallows
`OSError` per file and `glob` of a never-materialized directory yields
nothing), running it leaves no chunk artifacts, running it twice equals
running it once, and on an absent directory with no artifacts it is a
no-op. -/
theorem C9_clear_idempotent (s : FS) :
    clearChunks (clearChunks s) = clearChunks s ∧
    (clearChunks s).chunkFiles = [] ∧
    (clearChunks s).dirExists = s.dirExists ∧
    clearChunks ⟨false, []⟩ = ⟨false, []⟩ := by
  have h1 := clearChunks_chunkFiles s
  exact ⟨clearChunks_of_empty _ h1, h1, clearChunks_dirExists s, rfl⟩

/-- C10: `get_file_info` succeeds exactly when the HEAD response has a
non-error status (`raise_for_status` fires on status ≥ 400) and carries a
`Content-Length` header; it returns that length, and its result is
unchanged by the `Accept-Ranges` header — no partial-content support
check is performed. -/
theorem C10_metadata (r : HeadResponse) :
    ((get_file_info r).isOk = true ↔ (r.status < 400 ∧ r.contentLength.isSome = true)) ∧
    (∀ a, get_file_info { r with acceptRanges := a } = get_file_info r) ∧
    (∀ len, r.status < 400 → r.contentLength = some len → get_file_info r = .ok len) := by
  obtain ⟨st, cl, ct, ar⟩ := r
  refine ⟨⟨?_, ?_⟩, fun a => rfl, ?_⟩
  · intro hok
    by_cases h : 400 ≤ st
    · exact absurd hok (by simp [get_file_info, h, Except.toBool])
    · cases cl with
      | none => exact absurd hok (by simp [get_file_info, h, Except.toBool])
      | some len => exact ⟨Nat.lt_of_not_le h, rfl⟩
  · rintro ⟨h1, h2⟩
    obtain ⟨len, hlen⟩ := Option.isSome_iff_exists.mp h2
    show (get_file_info ⟨st, cl, ct, ar⟩).isOk = true
    rw [show cl = some len from hlen]
    simp [get_file_info, Nat.not_le.mpr h1, Except.toBool]
  · intro len h1 h2
    show get_file_info ⟨st, cl, ct, ar⟩ = Except.ok len
    rw [show cl = some len from h2]
    simp [get_file_info, Nat.not_le.mpr h1]

/-- Witness for C8 at concrete oracles. -/
theorem C8_zero_size_witness :
    numChunks 0 CHUNK_SIZE = 0 ∧ rangePlan 0 CHUNK_SIZE = [] ∧
    downloadFileRun 0 (fun _ => true) (fun _ => [9]) = ⟨⟨false, []⟩, some [], 0, true⟩ :=
  C8_zero_size (fun _ => true) (fun _ => [9])

/-- Witness for C9 at a store holding one artifact. -/
theorem C9_clear_idempotent_witness :
    clearChunks (clearChunks ⟨true, [(0, [1])]⟩) = clearChunks ⟨true, [(0, [1])]⟩ ∧
    (clearChunks ⟨true, [(0, [1])]⟩).chunkFiles = [] ∧
    (clearChunks ⟨true, [(0, [1])]⟩).dirExists = (⟨true, [(0, [1])]⟩ : FS).dirExists ∧
    clearChunks ⟨false, []⟩ = ⟨false, []⟩ :=
  C9_clear_idempotent ⟨true, [(0, [1])]⟩

/-- Witness for C10 at a concrete HEAD response. -/
theorem C10_metadata_witness :
    ((get_file_info ⟨200, some 42, none, none⟩).isOk = true ↔
      ((⟨200, some 42, none, none⟩ : HeadResponse).status < 400 ∧
        (⟨200, some 42, none, none⟩ : HeadResponse).contentLength.isSome = true)) ∧
    (∀ a, get_file_info { (⟨200, some 42, none, none⟩ : HeadResponse) with acceptRanges := a } =
      get_file_info ⟨200, some 42, none, none⟩) ∧
    (∀ len, (⟨200, some 42, none, none⟩ : HeadResponse).status < 400 →
      (⟨200, some 42, none, none⟩ : HeadResponse).contentLength = some len →
      get_file_info ⟨200, some 42, none, none⟩ = .ok len) :=
  C10_metadata ⟨200, some 42, none, none⟩

end ChunkDL
